import Mathlib

/-!
Verification of the file-manager engine in `src/main.py` (Kivy file browser).

The Python source is shallowly embedded: each engine operation of the
`Root` controller becomes a Lean function over an explicit state, file
system effects become explicit values (a file system is a finite list of
paths, paired with metadata where an operation needs it), and fallible
steps return `Option`/`Except` or are driven by an explicit success
oracle standing for the OS call outcome at each path.

String operations are carried out on `Char` lists (`String.data`) so that
every definition evaluates inside the kernel.
-/

/-! ### Path helpers (embeddings of `os.path` functions used by the code) -/

/-- Test that `s` starts with `pre`, at the character level. -/
def strStarts (pre s : String) : Bool :=
  pre.data.isPrefixOf s.data

/-- Test that `s` ends with `suf`, at the character level. -/
def strEnds (suf s : String) : Bool :=
  suf.data.reverse.isPrefixOf s.data.reverse

/-- Embedding of `os.path.basename` (POSIX): the characters after the last
slash (empty when the path ends in a slash). -/
def basename (p : String) : String :=
  String.mk ((p.data.reverse.takeWhile (fun c => c ≠ '/')).reverse)

/-- Embedding of the `FMItem.name` property (`src/main.py` line 61):
`os.path.basename(self.path) or self.path` — Python's `or` falls back to
the whole path when the basename is the empty string. -/
def nameOf (p : String) : String :=
  let b := basename p
  if b = "" then p else b

/-- Embedding of `os.path.dirname` (POSIX): everything up to (excluding)
the last slash; a run of trailing slashes in the head collapses unless the
head is nothing but slashes. -/
def dirname (p : String) : String :=
  let pre := (p.data.reverse.dropWhile (fun c => c ≠ '/')).reverse
  if pre.isEmpty then ""
  else if pre.all (fun c => c = '/') then String.mk pre
  else String.mk ((pre.reverse.dropWhile (fun c => c = '/')).reverse)

/-- Embedding of `os.path.join a b` (POSIX, two arguments as the code
uses it): an absolute `b` wins; otherwise concatenate, inserting a slash
unless `a` is empty or already ends in one. -/
def joinPath (a b : String) : String :=
  if strStarts "/" b then b
  else if a = "" ∨ strEnds "/" a then a ++ b
  else a ++ "/" ++ b

example : basename "/tmp/x/A" = "A" := by decide
example : basename "/tmp/x/b.txt" = "b.txt" := by decide
example : nameOf "/tmp/x/b.txt" = "b.txt" := by decide
example : dirname "/tmp/x/b.txt" = "/tmp/x" := by decide
example : joinPath "/tmp/x" "a.txt" = "/tmp/x/a.txt" := by decide

/-- Lower-casing of a character sequence: embedding of `str.lower()` as the
code uses it (ASCII names in all scenarios considered here). -/
def lowerChars (l : List Char) : List Char :=
  l.map Char.toLower

/-- Strip leading and trailing whitespace: embedding of `str.strip()`. -/
def trimChars (l : List Char) : List Char :=
  ((l.dropWhile Char.isWhitespace).reverse.dropWhile Char.isWhitespace).reverse

/-! ### The listing pipeline (`list_dir` + `Root.reload`, lines 86–253)

`FMItem` embeds the dataclass of line 52: directories carry size 0 (line
98).  `st_mtime` is a real-valued timestamp in Python; only its ordering
matters to the engine, so it is embedded as a natural number. -/

structure FMItem where
  path : String
  is_dir : Bool
  size : Nat
  mtime : Nat
deriving DecidableEq, Repr

/-- Lexicographic comparison of character sequences by code point — the
ordering Python uses for `str` comparison in `list.sort`. -/
def charListLe : List Char → List Char → Bool
  | [], _ => true
  | _ :: _, [] => false
  | a :: as, b :: bs => if a < b then true else if b < a then false else charListLe as bs

/-- Python tuple comparison `(n₁, x₁) <= (n₂, x₂)` specialised to a `Nat`
first component, with the second component compared by `leB`. -/
def lexLe (leB : β → β → Bool) (p q : Nat × β) : Bool :=
  if p.1 < q.1 then true else if q.1 < p.1 then false else leB p.2 q.2

/-- The first component of the Python sort-key tuples: `not i.is_dir`,
with Python's `False < True` rendered as `0 < 1`. -/
def dirRank (is_dir : Bool) : Nat :=
  if is_dir then 0 else 1

/-- Sort key of line 233: `(not i.is_dir, i.name.lower())`. -/
def nameKey (i : FMItem) : Nat × List Char :=
  (dirRank i.is_dir, lowerChars (nameOf i.path).data)

/-- Sort key of line 235: `(not i.is_dir, i.size)`. -/
def sizeKey (i : FMItem) : Nat × Nat :=
  (dirRank i.is_dir, i.size)

/-- Sort key of line 237: `(not i.is_dir, i.mtime)`. -/
def dateKey (i : FMItem) : Nat × Nat :=
  (dirRank i.is_dir, i.mtime)

/-- The three values of `Root.sort_key` (line 182: `name|size|date`). -/
inductive SortKey where
  | name
  | size
  | date
deriving DecidableEq

/-- Boolean `≤` on naturals, the second-component comparison for the
`size` and `date` keys. -/
def natLeB (x y : Nat) : Bool :=
  decide (x ≤ y)

/-- Key-tuple comparison between two items under the chosen sort key. -/
def itemLe (k : SortKey) (a b : FMItem) : Bool :=
  match k with
  | .name => lexLe charListLe (nameKey a) (nameKey b)
  | .size => lexLe natLeB (sizeKey a) (sizeKey b)
  | .date => lexLe natLeB (dateKey a) (dateKey b)

/-- The comparison actually applied by `items.sort(key=…, reverse=self.sort_desc)`
(lines 232–237): `reverse=True` sorts as if every comparison were reversed,
while remaining stable. -/
def sortLe (k : SortKey) (desc : Bool) (a b : FMItem) : Bool :=
  if desc then itemLe k b a else itemLe k a b

/-- Stable sort.  Python's `list.sort` is a stable sort with respect to
the key comparison; for a total transitive comparison the stable sorted
permutation is unique, so stable insertion sort embeds it faithfully. -/
def stableSort (le : α → α → Bool) (l : List α) : List α :=
  List.insertionSort (fun x y => le x y = true) l

/-- The hidden-entry filter of `list_dir` (line 91): entries whose display
name begins with `.` are dropped unless hidden files are shown. -/
def hiddenFilter (showHidden : Bool) (items : List FMItem) : List FMItem :=
  if showHidden then items else items.filter (fun i => !(strStarts "." (nameOf i.path)))

/-- Contiguous-substring test on character sequences: embedding of
Python's `q in s` for strings. -/
def subChars (q : List Char) : List Char → Bool
  | [] => q.isEmpty
  | c :: t => q.isPrefixOf (c :: t) || subChars q t

/-- The search filter of `Root.reload` (lines 228–230): lower-cased,
stripped query; case-insensitive substring match on the display name;
an empty query keeps everything. -/
def searchFilter (query : String) (items : List FMItem) : List FMItem :=
  let q := trimChars (lowerChars query.data)
  if q.isEmpty then items else items.filter (fun i => subChars q (lowerChars (nameOf i.path).data))

/-- The full listing pipeline of `Root.reload` (lines 224–237): hidden
filter (inside `list_dir`), then search filter, then sort. -/
def reloadItems (items : List FMItem) (showHidden : Bool) (query : String)
    (k : SortKey) (desc : Bool) : List FMItem :=
  stableSort (sortLe k desc) (searchFilter query (hiddenFilter showHidden items))

/-! ### Ordering facts about the sort comparison -/

theorem charListLe_cons {a b : Char} {as bs : List Char} :
    charListLe (a :: as) (b :: bs) = true ↔ a < b ∨ (a = b ∧ charListLe as bs = true) := by
  simp only [charListLe]
  split_ifs with h1 h2
  · simp [h1]
  · simp [h1, h2.ne.symm]
  · have hab : a = b := le_antisymm (not_lt.mp h2) (not_lt.mp h1)
    simp [h1, hab]

theorem charListLe_total : ∀ l m : List Char, (charListLe l m || charListLe m l) = true := by
  intro l
  induction l with
  | nil => intro m; simp [charListLe]
  | cons a as ih =>
    intro m
    cases m with
    | nil => simp [charListLe]
    | cons b bs =>
      simp only [Bool.or_eq_true, charListLe_cons]
      rcases lt_trichotomy a b with h | h | h
      · exact Or.inl (Or.inl h)
      · have h2 := ih bs
        simp only [Bool.or_eq_true] at h2
        rcases h2 with h2 | h2
        · exact Or.inl (Or.inr ⟨h, h2⟩)
        · exact Or.inr (Or.inr ⟨h.symm, h2⟩)
      · exact Or.inr (Or.inl h)

theorem charListLe_trans : ∀ l m n : List Char,
    charListLe l m = true → charListLe m n = true → charListLe l n = true := by
  intro l
  induction l with
  | nil => intro m n _ _; simp [charListLe]
  | cons a as ih =>
    intro m n h1 h2
    cases m with
    | nil => simp [charListLe] at h1
    | cons b bs =>
      cases n with
      | nil => simp [charListLe] at h2
      | cons c cs =>
        rw [charListLe_cons] at h1 h2 ⊢
        rcases h1 with h1 | ⟨rfl, h1⟩
        · rcases h2 with h2 | ⟨rfl, h2⟩
          · exact Or.inl (h1.trans h2)
          · exact Or.inl h1
        · rcases h2 with h2 | ⟨rfl, h2⟩
          · exact Or.inl h2
          · exact Or.inr ⟨rfl, ih bs cs h1 h2⟩

theorem lexLe_iff {β : Type} {leB : β → β → Bool} {p q : Nat × β} :
    lexLe leB p q = true ↔ p.1 < q.1 ∨ (p.1 = q.1 ∧ leB p.2 q.2 = true) := by
  simp only [lexLe]
  split_ifs with h1 h2
  · simp [h1]
  · simp [h1, h2.ne.symm]
  · have he : p.1 = q.1 := le_antisymm (not_lt.mp h2) (not_lt.mp h1)
    simp [h1, he]

theorem lexLe_total {β : Type} {leB : β → β → Bool}
    (hB : ∀ x y, (leB x y || leB y x) = true) :
    ∀ p q, (lexLe leB p q || lexLe leB q p) = true := by
  intro p q
  simp only [Bool.or_eq_true, lexLe_iff]
  rcases lt_trichotomy p.1 q.1 with h | h | h
  · exact Or.inl (Or.inl h)
  · have hb := hB p.2 q.2
    simp only [Bool.or_eq_true] at hb
    rcases hb with hb | hb
    · exact Or.inl (Or.inr ⟨h, hb⟩)
    · exact Or.inr (Or.inr ⟨h.symm, hb⟩)
  · exact Or.inr (Or.inl h)

theorem lexLe_trans {β : Type} {leB : β → β → Bool}
    (hB : ∀ x y z, leB x y = true → leB y z = true → leB x z = true) :
    ∀ p q r, lexLe leB p q = true → lexLe leB q r = true → lexLe leB p r = true := by
  intro p q r h1 h2
  rw [lexLe_iff] at h1 h2 ⊢
  rcases h1 with h1 | ⟨e1, h1⟩
  · rcases h2 with h2 | ⟨e2, h2⟩
    · exact Or.inl (h1.trans h2)
    · exact Or.inl (lt_of_lt_of_le h1 (le_of_eq e2))
  · rcases h2 with h2 | ⟨e2, h2⟩
    · exact Or.inl (lt_of_le_of_lt (le_of_eq e1) h2)
    · exact Or.inr ⟨e1.trans e2, hB _ _ _ h1 h2⟩

theorem lexLe_fst {β : Type} {leB : β → β → Bool} {p q : Nat × β}
    (h : lexLe leB p q = true) : p.1 ≤ q.1 := by
  rw [lexLe_iff] at h
  rcases h with h | ⟨h, _⟩
  · exact h.le
  · exact le_of_eq h

theorem natLeB_total : ∀ x y, (natLeB x y || natLeB y x) = true := by
  intro x y
  simpa [natLeB] using Nat.le_total x y

theorem natLeB_trans : ∀ x y z, natLeB x y = true → natLeB y z = true → natLeB x z = true := by
  intro x y z hxy hyz
  simp only [natLeB, decide_eq_true_eq] at *
  omega

theorem itemLe_total (k : SortKey) : ∀ a b, (itemLe k a b || itemLe k b a) = true := by
  intro a b
  cases k
  · exact lexLe_total charListLe_total _ _
  · exact lexLe_total natLeB_total _ _
  · exact lexLe_total natLeB_total _ _

theorem itemLe_trans (k : SortKey) :
    ∀ a b c, itemLe k a b = true → itemLe k b c = true → itemLe k a c = true := by
  intro a b c
  cases k
  · exact lexLe_trans charListLe_trans _ _ _
  · exact lexLe_trans natLeB_trans _ _ _
  · exact lexLe_trans natLeB_trans _ _ _

theorem itemLe_fst {k : SortKey} {a b : FMItem} (h : itemLe k a b = true) :
    dirRank a.is_dir ≤ dirRank b.is_dir := by
  cases k
  · exact lexLe_fst h
  · exact lexLe_fst h
  · exact lexLe_fst h

theorem sortLe_total (k : SortKey) (desc : Bool) :
    ∀ x y, sortLe k desc x y = true ∨ sortLe k desc y x = true := by
  intro x y
  have h := itemLe_total k x y
  simp only [Bool.or_eq_true] at h
  cases desc <;> simp only [sortLe, if_true, if_false] <;> tauto

theorem sortLe_trans (k : SortKey) (desc : Bool) :
    ∀ x y z, sortLe k desc x y = true → sortLe k desc y z = true →
    sortLe k desc x z = true := by
  intro x y z
  cases desc <;> simp only [sortLe, if_true, if_false] <;> intro h1 h2
  · exact itemLe_trans k x y z h1 h2
  · exact itemLe_trans k z y x h2 h1

theorem dirRank_le_imp {x y : Bool} (h : dirRank x ≤ dirRank y) :
    y = true → x = true := by
  cases x <;> cases y <;> simp_all [dirRank]

/-- The grouping the two sort directions actually produce: with
`descending = false` every directory precedes every non-directory; with
`descending = true` the whole composite ordering — the directory grouping
included — is reversed, so every non-directory precedes every directory. -/
def groupedBefore (desc : Bool) (a b : FMItem) : Prop :=
  if desc then (a.is_dir = true → b.is_dir = true)
  else (b.is_dir = true → a.is_dir = true)

theorem sortLe_grouped {k : SortKey} {desc : Bool} {a b : FMItem}
    (h : sortLe k desc a b = true) : groupedBefore desc a b := by
  cases desc <;> simp only [sortLe, groupedBefore, if_true, if_false] at h ⊢
  · exact dirRank_le_imp (itemLe_fst h)
  · exact dirRank_le_imp (itemLe_fst h)

/-- C1 (counterexample).  The claim says every directory entry precedes
every non-directory entry under both directions of the descending flag.
With the listing of the spec's §8 scenario — file `b.txt` and directory
`A` — sorting by name with `descending = true` puts the *file* first:
`reverse=True` reverses the whole composite key, `not is_dir` included. -/
theorem reload_descending_puts_file_first :
    (reloadItems [⟨"/tmp/x/b.txt", false, 10, 5⟩, ⟨"/tmp/x/A", true, 0, 5⟩]
        false "" SortKey.name true).map FMItem.is_dir = [false, true] := by
  decide

/-- C1 (amended).  For every listing produced by the pipeline, under every
sort key and both directions of the descending flag, the output is grouped
by kind: with `descending = false` every directory precedes every
non-directory, and with `descending = true` the descending flag reverses
the *entire* composite ordering — the grouping included — so every
non-directory precedes every directory. -/
theorem reload_grouping_by_direction (items : List FMItem) (showHidden : Bool)
    (query : String) (k : SortKey) (desc : Bool) :
    (reloadItems items showHidden query k desc).Pairwise (groupedBefore desc) := by
  have hs : (reloadItems items showHidden query k desc).Pairwise
      (fun a b => sortLe k desc a b = true) := by
    haveI : IsTotal FMItem (fun x y => sortLe k desc x y = true) := ⟨sortLe_total k desc⟩
    haveI : IsTrans FMItem (fun x y => sortLe k desc x y = true) := ⟨sortLe_trans k desc⟩
    exact List.sorted_insertionSort _ _
  exact hs.imp sortLe_grouped

/-! ### SelectionStore (`Root.toggle_select`, lines 256–266)

`Root.selection` is a Python `set` of path strings; it is embedded as a
`Finset String`.  `toggle_select` resolves the touched row to its path,
then removes the path when present and adds it otherwise; the subsequent
`self.reload()` only rebuilds the derived row view from the (unchanged)
file system and selection.  The controller state relevant here is the
file system plus the selection. -/

structure SelState where
  fs : List String
  selection : Finset String
deriving DecidableEq

/-- The membership flip at lines 259–262. -/
def toggleSel (sel : Finset String) (p : String) : Finset String :=
  if p ∈ sel then sel.erase p else insert p sel

/-- Embedding of `Root.toggle_select` on the controller state: only the selection
changes; the file system is not touched. -/
def toggleSelect (s : SelState) (p : String) : SelState :=
  { s with selection := toggleSel s.selection p }

/-- C8.  Toggling the same path twice returns the controller state it
started from: the selection membership of `p` — and the whole selection
set, and the file-system state — are unchanged.  `toggle` is its own
inverse. -/
theorem toggleSelect_involutive (s : SelState) (p : String) :
    toggleSelect (toggleSelect s p) p = s := by
  rcases s with ⟨fs, sel⟩
  simp only [toggleSelect, toggleSel]
  by_cases h : p ∈ sel
  · simp [h, Finset.not_mem_erase, Finset.insert_erase h]
  · simp [h, Finset.erase_insert h]

/-! ### PropertyAggregator (`Root.props`, lines 425–446)

A file-system subtree is a node tree; a file records whether
`os.path.getsize` succeeds on it (`statOk`).  `os.walk` lists every
contained file name whether or not the file can be stat-ed — only the
`getsize` call inside the inner `try` can fail — so the walk itself is
embedded as plain tree recursion. -/

inductive FSNode where
  | file (name : String) (size : Nat) (statOk : Bool)
  | dir (name : String) (children : List FSNode)

mutual
/-- The `total_files` contribution of one selected item (lines 432–441):
a file counts 1; for a directory, `total_files += len(files)` at every
walk level counts every contained file, stat-able or not. -/
def countFiles : FSNode → Nat
  | .file _ _ _ => 1
  | .dir _ cs => countFilesL cs
def countFilesL : List FSNode → Nat
  | [] => 0
  | c :: cs => countFiles c + countFilesL cs
end

mutual
/-- The `total_size` contribution of one selected item (lines 435–445):
each `getsize` sits in a `try` whose handler is `pass`, so a file whose
stat fails contributes nothing and surfaces no error. -/
def sizeSum : FSNode → Nat
  | .file _ sz ok => if ok then sz else 0
  | .dir _ cs => sizeSumL cs
def sizeSumL : List FSNode → Nat
  | [] => 0
  | c :: cs => sizeSum c + sizeSumL cs
end

/-- Embedding of `Root.props` over a selection: `(itemCount, fileCount, totalBytes)`
as displayed by the Properties popup (line 446). -/
def props (sel : List FSNode) : Nat × Nat × Nat :=
  (sel.length, countFilesL sel, sizeSumL sel)

theorem countFilesL_eq_sum (cs : List FSNode) :
    countFilesL cs = (cs.map countFiles).sum := by
  induction cs with
  | nil => rfl
  | cons c cs ih => simp [countFilesL, ih]

theorem sizeSumL_eq_sum (cs : List FSNode) :
    sizeSumL cs = (cs.map sizeSum).sum := by
  induction cs with
  | nil => rfl
  | cons c cs ih => simp [sizeSumL, ih]

/-- C2 (counterexample).  A selection holding one directory with two
stat-able files of 100 and 250 bytes and one unreadable file: the claim
says `fileCount = 2`, but `total_files += len(files)` counts every walked
file, so the code reports `fileCount = 3` (with `totalBytes = 350` as
claimed). -/
theorem props_counts_unreadable_file :
    (props [.dir "d" [.file "f1" 100 true, .file "f2" 250 true, .file "g" 7 false]]).2.1 ≠ 2 ∧
    props [.dir "d" [.file "f1" 100 true, .file "f2" 250 true, .file "g" 7 false]]
      = (1, 3, 350) := by
  decide

/-- C2 (amended).  For every selection consisting of a directory holding
exactly two stat-able files of 100 and 250 bytes plus one unreadable file
(in any order), the aggregation reports `fileCount = 3` — every walked
file is counted, stat-able or not — and `totalBytes = 350`: the
unreadable file is skipped only in the byte total, and no error is
surfaced (the model has no failure outcome, mirroring the `try/pass`). -/
theorem props_dir_two_readable_one_unreadable (dname n1 n2 n3 : String)
    (u : Nat) (cs : List FSNode)
    (h : cs.Perm [.file n1 100 true, .file n2 250 true, .file n3 u false]) :
    props [.dir dname cs] = (1, 3, 350) := by
  have hc : countFilesL cs = 3 := by
    rw [countFilesL_eq_sum, (h.map countFiles).sum_eq]
    simp [countFiles]
  have hs : sizeSumL cs = 350 := by
    rw [sizeSumL_eq_sum, (h.map sizeSum).sum_eq]
    simp [sizeSum]
  simp [props, countFilesL, countFiles, sizeSumL, sizeSum, hc, hs]

/-- C2 (witness for the amended theorem), at the listed order. -/
theorem props_dir_two_readable_one_unreadable_witness :
    props [.dir "d" [.file "f1" 100 true, .file "f2" 250 true, .file "g" 7 false]]
      = (1, 3, 350) :=
  props_dir_two_readable_one_unreadable "d" "f1" "f2" "g" 7 _ (List.Perm.refl _)

/-! ### ArchiveService creation (`Root.zip_selection`, lines 380–402)

The archive on disk is embedded as the list of entry names successfully
written to it; the disk maps paths to such contents.  Each `zf.write`
outcome is abstracted by a boolean on the entry.  A directory member's
`os.walk`/`relpath` enumeration (lines 392–396) is abstracted as the list
of (arcname, outcome) pairs it yields; a plain file member is written
under its basename (line 398).  Opening `ZipFile(out_path, 'w')` creates
(or truncates) the output file; the `with` block closes it, and the
`except` handler (line 400) only shows a toast — it never removes
`out_path`. -/

inductive ZipMember where
  | mfile (path : String) (writeOk : Bool)
  | mdir (walked : List (String × Bool))
deriving DecidableEq

/-- The entries one member contributes, in write order. -/
def memberEntries : ZipMember → List (String × Bool)
  | .mfile p ok => [(basename p, ok)]
  | .mdir walked => walked

/-- Sequential entry writing: the first failing `zf.write` raises, so the
entries actually in the archive are exactly those before the failure;
the boolean reports whether the whole loop completed. -/
def writeEntries : List (String × Bool) → List String × Bool
  | [] => ([], true)
  | (name, ok) :: rest =>
    if ok then (name :: (writeEntries rest).1, (writeEntries rest).2)
    else ([], false)

/-- Create or truncate `p` and leave it holding `content`. -/
def setFile (disk : List (String × List String)) (p : String)
    (content : List String) : List (String × List String) :=
  (p, content) :: disk.filter (fun e => e.1 ≠ p)

/-- Embedding of the archive-writing body of `Root.zip_selection` (lines 388–399): the
resulting disk and whether the write loop completed without error. -/
def zipSelection (disk : List (String × List String)) (outPath : String)
    (sel : List ZipMember) : List (String × List String) × Bool :=
  let entries := (sel.map memberEntries).flatten
  ((setFile disk outPath (writeEntries entries).1), (writeEntries entries).2)

/-! ### NameResolver (`Root._dedupe_name`, lines 371–378, with its call
site in `Root.paste_here`, lines 359–366)

The file system is the finite list of existing paths.  `_dedupe_name`
splits the candidate path with `os.path.splitext` and probes
`f"{base} ({i}){ext}"` for `i = 1, 2, …` until the name is unused.  The
unbounded `while` loop is embedded with explicit fuel; `|fs| + 1` probes
always suffice because distinct indices give distinct names, which is
proved below rather than assumed. -/

/-- Decimal digit character (`'0'` has code point 48). -/
def digitChar (d : Nat) : Char :=
  Char.ofNat (48 + d)

/-- Decimal rendering of a natural number, fuelled so that it evaluates
in the kernel; fuel `n + 1` always suffices. -/
def natDecAux : Nat → Nat → List Char
  | 0, _ => []
  | fuel + 1, n =>
    if n < 10 then [digitChar n]
    else natDecAux fuel (n / 10) ++ [digitChar (n % 10)]

/-- Decimal rendering of `n`, the `{i}` of the f-string at line 374. -/
def natDec (n : Nat) : List Char :=
  natDecAux (n + 1) n

/-- Decimal parsing, a left inverse witnessing that `natDec` is injective. -/
def decVal (l : List Char) : Nat :=
  l.foldl (fun acc c => acc * 10 + (c.toNat - 48)) 0

theorem decVal_append_digit (l : List Char) (c : Char) :
    decVal (l ++ [c]) = decVal l * 10 + (c.toNat - 48) := by
  simp [decVal, List.foldl_append]

theorem digitChar_toNat : ∀ d, d < 10 → (digitChar d).toNat = 48 + d := by
  decide

theorem decVal_natDecAux : ∀ fuel n, n < fuel → decVal (natDecAux fuel n) = n := by
  intro fuel
  induction fuel with
  | zero => intro n h; omega
  | succ fuel ih =>
    intro n h
    by_cases h10 : n < 10
    · simp [natDecAux, h10, decVal, digitChar_toNat n h10]
    · have hdiv : n / 10 < n := Nat.div_lt_self (by omega) (by omega)
      have hrec := ih (n / 10) (by omega)
      have hdig := digitChar_toNat (n % 10) (Nat.mod_lt n (by omega))
      simp only [natDecAux, h10, if_false, decVal_append_digit, hrec, hdig]
      omega

theorem decVal_natDec (n : Nat) : decVal (natDec n) = n :=
  decVal_natDecAux (n + 1) n (Nat.lt_succ_self n)

theorem natDec_injective : Function.Injective natDec := by
  intro a b h
  have := congrArg decVal h
  rwa [decVal_natDec, decVal_natDec] at this

/-- The f-string of line 374, `f"{base} ({i}){ext}"`, at the character
level (`stem` here is Python's `base`). -/
def candChars (stem ext : List Char) (i : Nat) : List Char :=
  stem ++ ' ' :: '(' :: (natDec i ++ ')' :: ext)

/-- The probed candidate name. -/
def candName (stem ext : List Char) (i : Nat) : String :=
  String.mk (candChars stem ext i)

theorem candChars_inj (stem ext : List Char) {i j : Nat}
    (h : candChars stem ext i = candChars stem ext j) : i = j := by
  have h1 := List.append_cancel_left h
  simp only [List.cons.injEq, true_and] at h1
  exact natDec_injective (List.append_cancel_right h1)

theorem candName_injective (stem ext : List Char) :
    Function.Injective (candName stem ext) := by
  intro i j h
  exact candChars_inj stem ext (congrArg String.data h)

/-- Split of a slash-free file name into stem and extension, the
`os.path.splitext` rule: the extension starts at the last dot, provided
some earlier non-dot character exists in the name (leading dots never
open an extension). -/
def splitExtBase (base : List Char) : List Char × List Char :=
  let lead := base.takeWhile (fun c => c = '.')
  let rest := base.dropWhile (fun c => c = '.')
  if rest.any (fun c => c = '.') then
    let revRest := rest.reverse
    let extRev := revRest.takeWhile (fun c => c ≠ '.')
    let stemRev := revRest.dropWhile (fun c => c ≠ '.')
    (lead ++ (stemRev.drop 1).reverse, '.' :: extRev.reverse)
  else (base, [])

/-- Embedding of `os.path.splitext` (line 372): split the last path
component into stem and extension; the directory part always belongs to
the stem. -/
def splitExt (p : String) : String × String :=
  let l := p.data
  let base := (l.reverse.takeWhile (fun c => c ≠ '/')).reverse
  let pre := (l.reverse.dropWhile (fun c => c ≠ '/')).reverse
  let se := splitExtBase base
  (String.mk (pre ++ se.1), String.mk se.2)

example : splitExt "/t/a.txt" = ("/t/a", ".txt") := by decide
example : splitExt "a.txt" = ("a", ".txt") := by decide
example : splitExt "/t/.hidden" = ("/t/.hidden", "") := by decide
example : splitExt "/t/ar.tar.gz" = ("/t/ar.tar", ".gz") := by decide

/-- The probing loop of `_dedupe_name` (lines 373–377): try
`candName stem ext i`, `i + 1`, … until the name is not taken, with
explicit fuel. -/
def dedupeSearch (fs : List String) (stem ext : List Char) : Nat → Nat → String
  | 0, i => candName stem ext i
  | fuel + 1, i =>
    if candName stem ext i ∈ fs then dedupeSearch fs stem ext fuel (i + 1)
    else candName stem ext i

/-- Embedding of `Root._dedupe_name` (lines 371–378), with the always-sufficient fuel
`|fs| + 1`. -/
def dedupeName (fs : List String) (p : String) : String :=
  let se := splitExt p
  dedupeSearch fs se.1.data se.2.data (fs.length + 1) 1

/-- The resolver as invoked by `paste_here` (lines 360–365): dedupe only
when the candidate destination already exists. -/
def resolveName (fs : List String) (p : String) : String :=
  if p ∈ fs then dedupeName fs p else p

/-- Pigeonhole: among any `|fs| + 1` consecutive candidate indices, some
candidate name is unused. -/
theorem exists_cand_not_mem (fs : List String) (stem ext : List Char) (i : Nat) :
    ∃ j, i ≤ j ∧ j < i + (fs.length + 1) ∧ candName stem ext j ∉ fs := by
  by_contra hc
  push_neg at hc
  have hsub : ((List.range (fs.length + 1)).map (fun k => candName stem ext (i + k))) ⊆ fs := by
    intro x hx
    simp only [List.mem_map, List.mem_range] at hx
    obtain ⟨k, hk, rfl⟩ := hx
    exact hc (i + k) (by omega) (by omega)
  have hnd : ((List.range (fs.length + 1)).map (fun k => candName stem ext (i + k))).Nodup := by
    refine List.Nodup.map ?_ (List.nodup_range _)
    intro a b hab
    have := candName_injective stem ext hab
    omega
  have := (List.subperm_of_subset hnd hsub).length_le
  simp at this

theorem dedupeSearch_spec (fs : List String) (stem ext : List Char) :
    ∀ fuel i, (∃ j, i ≤ j ∧ j < i + fuel ∧ candName stem ext j ∉ fs) →
    ∃ m, i ≤ m ∧ dedupeSearch fs stem ext fuel i = candName stem ext m ∧
      candName stem ext m ∉ fs ∧ ∀ j, i ≤ j → j < m → candName stem ext j ∈ fs := by
  intro fuel
  induction fuel with
  | zero =>
    intro i h
    obtain ⟨j, hij, hj, _⟩ := h
    omega
  | succ fuel ih =>
    intro i h
    obtain ⟨j, hij, hjlt, hjmem⟩ := h
    by_cases hmem : candName stem ext i ∈ fs
    · have hji : j ≠ i := fun he => hjmem (he ▸ hmem)
      obtain ⟨m, him, heq, hm, hmin⟩ := ih (i + 1) ⟨j, by omega, by omega, hjmem⟩
      refine ⟨m, by omega, ?_, hm, ?_⟩
      · simpa [dedupeSearch, hmem] using heq
      · intro j' hj1 hj2
        rcases Nat.eq_or_lt_of_le hj1 with rfl | hlt
        · exact hmem
        · exact hmin j' (by omega) hj2
    · exact ⟨i, le_refl i, by simp [dedupeSearch, hmem], hmem,
        fun j' h1 h2 => absurd h2 (by omega)⟩

/-- C4.  Collision resolution: a non-existing candidate path is returned
unchanged; the returned path never exists at call time; for an existing
candidate the result is the first unused ` (i)`-suffixed name (every
earlier probe is taken), the probe terminating within `|fs| + 1` steps;
and on the concrete scenario — `a.txt` exists with sibling `a (1).txt` —
the resolver returns `a (2).txt`. -/
theorem resolveName_spec (fs : List String) (p : String) :
    (p ∉ fs → resolveName fs p = p) ∧
    resolveName fs p ∉ fs ∧
    (p ∈ fs → ∃ m, 1 ≤ m ∧
      resolveName fs p = candName (splitExt p).1.data (splitExt p).2.data m ∧
      ∀ j, 1 ≤ j → j < m → candName (splitExt p).1.data (splitExt p).2.data j ∈ fs) ∧
    resolveName ["a.txt", "a (1).txt"] "a.txt" = "a (2).txt" := by
  refine ⟨fun hp => by simp [resolveName, hp], ?_, fun hp => ?_, by decide⟩
  · by_cases hp : p ∈ fs
    · obtain ⟨m, _, heq, hm, _⟩ := dedupeSearch_spec fs (splitExt p).1.data (splitExt p).2.data
        (fs.length + 1) 1 (exists_cand_not_mem fs _ _ 1)
      simpa [resolveName, hp, dedupeName, heq] using hm
    · simp [resolveName, hp]
  · obtain ⟨m, h1m, heq, hm, hmin⟩ := dedupeSearch_spec fs (splitExt p).1.data (splitExt p).2.data
      (fs.length + 1) 1 (exists_cand_not_mem fs _ _ 1)
    exact ⟨m, h1m, by simpa [resolveName, hp, dedupeName] using heq, hmin⟩

/-- C4 (witness): the hypothesised conjuncts of `resolveName_spec`
discharged on concrete inputs. -/
theorem resolveName_spec_witness :
    resolveName ["a.txt"] "b.txt" = "b.txt" ∧
    resolveName ["a.txt", "a (1).txt"] "a.txt" ∉ (["a.txt", "a (1).txt"] : List String) := by
  exact ⟨(resolveName_spec ["a.txt"] "b.txt").1 (by decide),
    (resolveName_spec ["a.txt", "a (1).txt"] "a.txt").2.1⟩

theorem writeEntries_false_iff (es : List (String × Bool)) :
    (writeEntries es).2 = false ↔ ∃ p ∈ es, p.2 = false := by
  induction es with
  | nil => simp [writeEntries]
  | cons e rest ih =>
    rcases e with ⟨name, ok⟩
    cases ok
    · simp [writeEntries]
    · simp [writeEntries, ih]

/-- C3 (counterexample).  Two file members where the second write fails:
the claim says no partial archive file remains on disk, but after the
failed batch the output path still holds a one-entry partial archive. -/
theorem zip_failure_leaves_partial_archive :
    (zipSelection [] "/d/out.zip" [.mfile "/s/f1" true, .mfile "/s/f2" false]).2 = false ∧
    ("/d/out.zip", ["f1"]) ∈
      (zipSelection [] "/d/out.zip" [.mfile "/s/f1" true, .mfile "/s/f2" false]).1 := by
  decide

/-- C3 (amended).  Archive creation is not all-or-nothing: for every
input member list and output path, the output file is on disk afterwards
holding exactly the entries written before the first failure — also when
an I/O error occurred, which is the case exactly when some entry's write
fails; the partial archive is left in place, not discarded. -/
theorem zip_partial_archive_remains (disk : List (String × List String))
    (outPath : String) (sel : List ZipMember) :
    (outPath, (writeEntries ((sel.map memberEntries).flatten)).1)
        ∈ (zipSelection disk outPath sel).1 ∧
    ((zipSelection disk outPath sel).2 = false ↔
      ∃ p ∈ (sel.map memberEntries).flatten, p.2 = false) := by
  constructor
  · simp [zipSelection, setFile]
  · simpa [zipSelection] using writeEntries_false_iff ((sel.map memberEntries).flatten)

/-! ### Folder creation (`Root.new_folder`, lines 284–294)

Directory paths are embedded as component lists.  The code computes
`dest = os.path.join(current_path, name)` and calls
`os.makedirs(dest, exist_ok=False)`: every missing ancestor of `dest` is
created (intermediate levels with `exist_ok=True` semantics), and
`FileExistsError` is raised only when the target itself already exists. -/

/-- The proper nonempty ancestors of a component path, shortest first:
for `[a, b, c]` these are `[a]` and `[a, b]`. -/
def properAncestors (p : List String) : List (List String) :=
  ((List.range p.length).drop 1).map (fun k => p.take k)

/-- Embedding of `os.makedirs (exist_ok=False)` over the set of existing
directories: error when the target exists, otherwise add the missing
ancestors and the target. -/
def makedirs (fs : List (List String)) (p : List String) :
    Except Unit (List (List String)) :=
  if p ∈ fs then .error ()
  else .ok (fs ++ (properAncestors p).filter (fun q => decide (q ∉ fs)) ++ [p])

/-- The `_ok` body of `Root.new_folder` for a nonempty entered name
(lines 285–293): create `current_path/name`; the entered name may itself
contain separators, hence the component list. -/
def newFolder (fs : List (List String)) (current nameParts : List String) :
    Except Unit (List (List String)) :=
  makedirs fs (current ++ nameParts)

/-- C5 (counterexample).  The claim says a missing intermediate ancestor
in the requested name is an error, never auto-created.  With only `home`
existing, creating `a/b` inside it succeeds and silently creates the
missing intermediate `home/a`. -/
theorem newFolder_creates_missing_intermediate :
    newFolder [["home"]] ["home"] ["a", "b"]
      = .ok [["home"], ["home", "a"], ["home", "a", "b"]] := by
  rfl

/-- C5 (amended).  Folder creation fails when (and only when) the target
path itself already exists; otherwise it succeeds with *recursive*
semantics: the target and every missing intermediate ancestor are
created (auto-created, not an error), and existing entries are kept. -/
theorem makedirs_spec (fs : List (List String)) (p : List String) :
    (p ∈ fs → makedirs fs p = .error ()) ∧
    (p ∉ fs → ∃ fs1, makedirs fs p = .ok fs1 ∧ p ∈ fs1 ∧
      (∀ q ∈ properAncestors p, q ∈ fs1) ∧ ∀ q ∈ fs, q ∈ fs1) := by
  constructor
  · intro hp
    simp [makedirs, hp]
  · intro hp
    refine ⟨fs ++ (properAncestors p).filter (fun q => decide (q ∉ fs)) ++ [p],
      by simp [makedirs, hp], by simp, ?_, ?_⟩
    · intro q hq
      by_cases hqf : q ∈ fs
      · simp [hqf]
      · simp only [List.mem_append]
        exact Or.inl (Or.inr (List.mem_filter.mpr ⟨hq, by simp [hqf]⟩))
    · intro q hq
      simp [hq]

/-- C5 (witness): both branches of `makedirs_spec` at concrete inputs. -/
theorem makedirs_spec_witness :
    makedirs [["a"]] ["a"] = .error () ∧
    ∃ fs1, makedirs [["a"]] ["b", "c"] = .ok fs1 ∧ ["b", "c"] ∈ fs1 ∧
      (∀ q ∈ properAncestors ["b", "c"], q ∈ fs1) ∧ ∀ q ∈ [["a"]], q ∈ fs1 :=
  ⟨(makedirs_spec [["a"]] ["a"]).1 (by decide),
   (makedirs_spec [["a"]] ["b", "c"]).2 (by decide)⟩

/-! ### Move (`Root.move_to_here`, lines 336–348)

The file system is the list of existing paths.  `shutil.move(src, dest)`
is embedded as: failure (caught by the per-item `except`, which only
shows a toast) when `src` is not on disk — the oracle for whatever makes
the OS call fail — and otherwise relocation of `src` to `dest`,
replacing anything already at `dest` (native move semantics, no
collision resolution). -/

structure MoveState where
  fs : List String
  clipboard : List String
  currentPath : String
deriving DecidableEq

/-- Embedding of one `shutil.move` call. -/
def fsMove (fs : List String) (src dest : String) : Option (List String) :=
  if src ∈ fs then
    some (dest :: fs.filter (fun q => !(decide (q = src) || decide (q = dest))))
  else none

/-- The `for src in list(self.clipboard)` loop (lines 341–347): each item
is tried in turn; a failing item leaves the disk unchanged and the loop
continues. -/
def moveFold (destDir : String) : List String → List String → List String
  | fs, [] => fs
  | fs, src :: rest =>
    match fsMove fs src (joinPath destDir (basename src)) with
    | some fs2 => moveFold destDir fs2 rest
    | none => moveFold destDir fs rest

/-- Embedding of `Root.move_to_here`: empty clipboard is a guarded no-op (line 337);
otherwise the whole batch runs and only then is the clipboard cleared
wholesale (line 348). -/
def moveToHere (s : MoveState) : MoveState :=
  if s.clipboard.isEmpty then s
  else { s with fs := moveFold s.currentPath s.fs s.clipboard, clipboard := [] }

theorem fsMove_mem {fs : List String} {src dest q : String} {fs2 : List String}
    (h : fsMove fs src dest = some fs2) (hq : q ∈ fs2) : q = dest ∨ q ∈ fs := by
  by_cases hs : src ∈ fs
  · simp only [fsMove, if_pos hs, Option.some.injEq] at h
    subst h
    rcases hq with _ | hq
    · exact Or.inl rfl
    · exact Or.inr (List.mem_of_mem_filter (by assumption))
  · simp [fsMove, hs] at h

theorem moveFold_mem (destDir : String) :
    ∀ ps fs q, q ∈ moveFold destDir fs ps →
      q ∈ fs ∨ ∃ src ∈ ps, q = joinPath destDir (basename src) := by
  intro ps
  induction ps with
  | nil => intro fs q hq; exact Or.inl hq
  | cons src rest ih =>
    intro fs q hq
    simp only [moveFold] at hq
    rcases hmv : fsMove fs src (joinPath destDir (basename src)) with _ | fs2
    · rw [hmv] at hq
      rcases ih fs q hq with h | ⟨s, hs, hd⟩
      · exact Or.inl h
      · exact Or.inr ⟨s, by simp [hs], hd⟩
    · rw [hmv] at hq
      rcases ih fs2 q hq with h | ⟨s, hs, hd⟩
      · rcases fsMove_mem hmv h with h | h
        · exact Or.inr ⟨src, by simp, h⟩
        · exact Or.inl h
      · exact Or.inr ⟨s, by simp [hs], hd⟩

theorem moveFold_skip (destDir : String) :
    ∀ ps1 fs p ps2, p ∉ fs → (∀ q ∈ ps1, p ≠ joinPath destDir (basename q)) →
      moveFold destDir fs (ps1 ++ p :: ps2) = moveFold destDir fs (ps1 ++ ps2) := by
  intro ps1
  induction ps1 with
  | nil =>
    intro fs p ps2 hp _
    simp [moveFold, fsMove, hp]
  | cons r rest ih =>
    intro fs p ps2 hp hds
    simp only [List.cons_append, moveFold]
    rcases hmv : fsMove fs r (joinPath destDir (basename r)) with _ | fs2
    · exact ih fs p ps2 hp (fun q hq => hds q (by simp [hq]))
    · refine ih fs2 p ps2 ?_ (fun q hq => hds q (by simp [hq]))
      intro hmem
      rcases fsMove_mem hmv hmem with h | h
      · exact hds r (by simp) h
      · exact hp h

/-- C6.  Move-to-here: (1) whenever the clipboard is nonempty, it is
cleared wholesale after the whole batch — also when items fail; (2) a
failing item (its source absent, and its destination not produced by an
earlier item of the batch) changes nothing: the batch result equals the
batch without it, so every other item is still processed; (3) every path
on disk afterwards is an original path or `destinationDir/basename(src)`
for a staged `src` — destinations are computed with no collision
resolution (no ` (i)`-suffixed variant is ever produced). -/
theorem moveToHere_spec :
    (∀ s : MoveState, s.clipboard ≠ [] → (moveToHere s).clipboard = []) ∧
    (∀ destDir fs ps1 p ps2, p ∉ fs → (∀ q ∈ ps1, p ≠ joinPath destDir (basename q)) →
      moveFold destDir fs (ps1 ++ p :: ps2) = moveFold destDir fs (ps1 ++ ps2)) ∧
    (∀ destDir fs ps q, q ∈ moveFold destDir fs ps →
      q ∈ fs ∨ ∃ src ∈ ps, q = joinPath destDir (basename src)) := by
  refine ⟨?_, ?_, ?_⟩
  · intro s hs
    simp only [moveToHere]
    rw [if_neg (by simpa using hs)]
  · intro destDir fs ps1 p ps2 hp hds
    exact moveFold_skip destDir ps1 fs p ps2 hp hds
  · intro destDir fs ps q hq
    exact moveFold_mem destDir ps fs q hq

/-- C6 (witness): the three conjuncts of `moveToHere_spec` at concrete
inputs — a one-item clipboard is cleared; a missing source is skipped
without affecting the batch; a moved path lands at `destDir/basename`. -/
theorem moveToHere_spec_witness :
    (moveToHere ⟨["/s/x"], ["/s/x"], "/d"⟩).clipboard = [] ∧
    moveFold "/d" ["/s/x"] (["/s/x"] ++ "/s/gone" :: []) = moveFold "/d" ["/s/x"] (["/s/x"] ++ []) ∧
    ("/d/x" ∈ ["/s/x"] ∨ ∃ src ∈ ["/s/x"], "/d/x" = joinPath "/d" (basename src)) :=
  ⟨moveToHere_spec.1 ⟨["/s/x"], ["/s/x"], "/d"⟩ (by decide),
   moveToHere_spec.2.1 "/d" ["/s/x"] ["/s/x"] "/s/gone" [] (by decide) (by decide),
   moveToHere_spec.2.2 "/d" ["/s/x"] ["/s/x"] "/d/x" (by decide)⟩

/-! ### Batch delete (`Root.delete_items`, lines 313–327)

The file system is a list of (path, is-directory) entries.  The `_do`
continuation runs after the confirm dialog: for each selected path, a
directory is removed recursively with `shutil.rmtree` and anything else
with `os.remove`; the per-item `except` only shows a "Failed: …" toast
and the loop continues; afterwards `self.selection.clear()` runs
unconditionally.  Whether the OS lets a path be removed is abstracted by
the oracle `removable`; a failed removal leaves the disk unchanged. -/

/-- Test that `q` lies strictly inside the directory `p`. -/
def isUnder (p q : String) : Bool :=
  strStarts (p ++ "/") q

/-- Embedding of `os.path.isdir(p)` over the embedded file system. -/
def isDirOn (fs : List (String × Bool)) (p : String) : Bool :=
  fs.any (fun e => decide (e.1 = p) && e.2)

/-- Embedding of `shutil.rmtree p`: drop `p` and everything under it. -/
def removeTree (fs : List (String × Bool)) (p : String) : List (String × Bool) :=
  fs.filter (fun e => !(decide (e.1 = p) || isUnder p e.1))

/-- Embedding of `os.remove p`: drop the single entry `p`. -/
def removeSingle (fs : List (String × Bool)) (p : String) : List (String × Bool) :=
  fs.filter (fun e => !(decide (e.1 = p)))

/-- One iteration of the delete loop (lines 318–325): result file system
and whether the removal succeeded. -/
def deleteOne (removable : String → Bool) (fs : List (String × Bool)) (p : String) :
    List (String × Bool) × Bool :=
  if removable p then
    (if isDirOn fs p then removeTree fs p else removeSingle fs p, true)
  else (fs, false)

/-- The whole loop: final file system and the failed paths, in order (one
"Failed" toast per failure). -/
def deleteBatch (removable : String → Bool) :
    List (String × Bool) → List String → List (String × Bool) × List String
  | fs, [] => (fs, [])
  | fs, p :: ps =>
    let r := deleteOne removable fs p
    let rest := deleteBatch removable r.1 ps
    (rest.1, (if r.2 then [] else [p]) ++ rest.2)

theorem deleteOne_subset {removable : String → Bool} {fs : List (String × Bool)}
    {p : String} {e : String × Bool} (h : e ∈ (deleteOne removable fs p).1) : e ∈ fs := by
  by_cases hr : removable p = true
  · by_cases hd : isDirOn fs p = true
    · simp only [deleteOne, hr, if_true, hd] at h
      exact List.mem_of_mem_filter h
    · simp only [deleteOne, hr, if_true, if_neg hd] at h
      exact List.mem_of_mem_filter h
  · simpa [deleteOne, hr] using h

theorem deleteBatch_subset {removable : String → Bool} :
    ∀ {ps : List String} {fs : List (String × Bool)} {e : String × Bool},
      e ∈ (deleteBatch removable fs ps).1 → e ∈ fs := by
  intro ps
  induction ps with
  | nil => intro fs e h; simpa [deleteBatch] using h
  | cons p ps ih =>
    intro fs e h
    exact deleteOne_subset (ih h)

theorem deleteOne_removes {removable : String → Bool} {fs : List (String × Bool)}
    {p : String} {e : String × Bool} (hr : removable p = true)
    (h : e ∈ (deleteOne removable fs p).1) : e.1 ≠ p := by
  by_cases hd : isDirOn fs p = true
  · simp only [deleteOne, hr, if_true, hd, removeTree, List.mem_filter] at h
    intro he
    simp [he] at h
  · simp only [deleteOne, hr, if_true, if_neg hd, removeSingle, List.mem_filter] at h
    intro he
    simp [he] at h

/-- C7.  Batch delete over `[A, B, C]` where removing `B` fails and `A`,
`C` can be removed: the batch never aborts early — both `A` and `C` are
gone from the resulting file system (each removed recursively when a
directory and singly otherwise) — and exactly one failure is reported,
for `B`. -/
theorem deleteBatch_isolates_failure (removable : String → Bool)
    (fs : List (String × Bool)) (A B C : String)
    (hA : removable A = true) (hB : removable B = false) (hC : removable C = true) :
    (deleteBatch removable fs [A, B, C]).2 = [B] ∧
    ∀ e ∈ (deleteBatch removable fs [A, B, C]).1, e.1 ≠ A ∧ e.1 ≠ C := by
  constructor
  · simp [deleteBatch, deleteOne, hA, hB, hC]
  · intro e he
    simp only [deleteBatch] at he
    have hBfs : (deleteOne removable (deleteOne removable fs A).1 B).1
        = (deleteOne removable fs A).1 := by
      simp [deleteOne, hB]
    rw [hBfs] at he
    have hC2 : e.1 ≠ C := deleteOne_removes hC he
    have hin1 : e ∈ (deleteOne removable fs A).1 := deleteOne_subset he
    exact ⟨deleteOne_removes hA hin1, hC2⟩

/-- C7 (witness): a concrete three-path batch with `B` unremovable. -/
theorem deleteBatch_isolates_failure_witness :
    (deleteBatch (fun p => decide (p ≠ "/x/B")) [("/x/A", true), ("/x/B", false), ("/x/C", false)]
      ["/x/A", "/x/B", "/x/C"]).2 = ["/x/B"] ∧
    ∀ e ∈ (deleteBatch (fun p => decide (p ≠ "/x/B"))
        [("/x/A", true), ("/x/B", false), ("/x/C", false)] ["/x/A", "/x/B", "/x/C"]).1,
      e.1 ≠ "/x/A" ∧ e.1 ≠ "/x/C" :=
  deleteBatch_isolates_failure (fun p => decide (p ≠ "/x/B"))
    [("/x/A", true), ("/x/B", false), ("/x/C", false)] "/x/A" "/x/B" "/x/C"
    (by decide) (by decide) (by decide)

/-- The controller state the delete confirmation mutates. -/
structure DelState where
  fs : List (String × Bool)
  selection : Finset String

/-- The `_do` continuation of `Root.delete_items` (lines 317–326): run the
batch over the iteration order of `list(self.selection)`, then clear the
selection unconditionally (line 326). -/
def deleteItemsRun (removable : String → Bool) (s : DelState) (order : List String) :
    DelState × List String :=
  let r := deleteBatch removable s.fs order
  (⟨r.1, ∅⟩, r.2)

theorem deleteBatch_mem_failures {removable : String → Bool} {b : String} :
    ∀ {ps : List String} {fs : List (String × Bool)}, b ∈ ps → removable b = false →
      b ∈ (deleteBatch removable fs ps).2 := by
  intro ps
  induction ps with
  | nil => intro fs h _; simp at h
  | cons p ps ih =>
    intro fs hmem hfail
    rcases List.mem_cons.mp hmem with rfl | hmem2
    · simp [deleteBatch, deleteOne, hfail]
    · simp only [deleteBatch, List.mem_append]
      exact Or.inr (ih hmem2 hfail)

/-- C9.  After every delete confirmation run the selection set is empty,
and this includes the paths whose deletion failed: every path of the run
whose removal the OS refuses is reported among the failures, yet it is
dropped from the selection along with the successfully deleted ones. -/
theorem deleteItemsRun_empties_selection (removable : String → Bool) (s : DelState)
    (order : List String) :
    (deleteItemsRun removable s order).1.selection = ∅ ∧
    ∀ b ∈ order, removable b = false → b ∈ (deleteItemsRun removable s order).2 :=
  ⟨rfl, fun _ hb hfail => deleteBatch_mem_failures hb hfail⟩

/-- C9 (witness): the failing path is reported and the selection is
cleared in a concrete run. -/
theorem deleteItemsRun_empties_selection_witness :
    (deleteItemsRun (fun _ => false) ⟨[("/x/B", false)], {"/x/B"}⟩ ["/x/B"]).1.selection = ∅ ∧
    "/x/B" ∈ (deleteItemsRun (fun _ => false) ⟨[("/x/B", false)], {"/x/B"}⟩ ["/x/B"]).2 :=
  ⟨(deleteItemsRun_empties_selection (fun _ => false) ⟨[("/x/B", false)], {"/x/B"}⟩ ["/x/B"]).1,
   (deleteItemsRun_empties_selection (fun _ => false) ⟨[("/x/B", false)], {"/x/B"}⟩
      ["/x/B"]).2 "/x/B" (by decide) rfl⟩

/-! ### Rename (`Root.rename_item`, lines 296–311)

`os.rename(src, dest)` either relocates `src` to `dest` or raises; the
outcome of the one OS call is abstracted by the boolean `ok`.  On
success the code *assigns* `self.selection = {dest}`; the `except`
branch only shows a toast and changes nothing. -/

structure RnState where
  fs : List String
  selection : Finset String
deriving DecidableEq

/-- Embedding of one `os.rename` call: on success `src`'s entry moves to
`dest`, replacing anything there; on failure `none`. -/
def osRename (ok : Bool) (fs : List String) (src dest : String) : Option (List String) :=
  if ok then some (dest :: fs.filter (fun q => !(decide (q = src) || decide (q = dest))))
  else none

/-- The `_ok` continuation of `Root.rename_item` (lines 301–310) for the
single selected path `src` and the entered `newName`: empty names are
ignored; otherwise rename to the sibling path `dirname(src)/newName`,
and on success replace the selection by that singleton (line 307). -/
def renameOkRun (ok : Bool) (s : RnState) (src newName : String) : RnState :=
  if newName = "" then s
  else
    match osRename ok s.fs src (joinPath (dirname src) newName) with
    | some fs2 => ⟨fs2, {joinPath (dirname src) newName}⟩
    | none => s

/-- C10.  For the single selected path `src` and a nonempty entered name:
a successful rename replaces the selection by exactly the singleton of
the new sibling path `dirname(src)/newName`; a failed rename leaves the
whole state — the selection included — unchanged. -/
theorem renameOkRun_selection (ok : Bool) (s : RnState) (src newName : String)
    (_hsel : s.selection = {src}) (hname : newName ≠ "") :
    (ok = true →
      (renameOkRun ok s src newName).selection = {joinPath (dirname src) newName}) ∧
    (ok = false → renameOkRun ok s src newName = s) := by
  constructor
  · intro hok
    simp [renameOkRun, hname, osRename, hok]
  · intro hok
    simp [renameOkRun, hname, osRename, hok]

/-- C10 (witness): both outcomes at a concrete state. -/
theorem renameOkRun_selection_witness :
    (renameOkRun true ⟨["/d/old"], {"/d/old"}⟩ "/d/old" "new").selection = {"/d/new"} ∧
    renameOkRun false ⟨["/d/old"], {"/d/old"}⟩ "/d/old" "new"
      = (⟨["/d/old"], {"/d/old"}⟩ : RnState) := by
  constructor
  · have h := (renameOkRun_selection true ⟨["/d/old"], {"/d/old"}⟩ "/d/old" "new"
      rfl (by decide)).1 rfl
    simpa using h
  · exact (renameOkRun_selection false ⟨["/d/old"], {"/d/old"}⟩ "/d/old" "new"
      rfl (by decide)).2 rfl
